import Mathlib

/-!
Verification development for the feed-server core in `server.py`: the sequenced
ring buffer (`FeedRun`), the playback driver (`playback_from_memory`), the
session handler (`WSServer.handler`), the live sender (`WSServer._live_loop`),
the heartbeat loop and the send path (`WSServer._send`).

Payloads are never inspected by the embedded code paths, so samples are
parameterised over an opaque payload type.
-/

namespace Feed

variable {α : Type} {β : Type}

/-- A feed sample (one of the dicts flowing through the server). The `payload`
is carried opaquely: the ring, playback, session and live-sender code never
look inside it. `series_id = none` models a sample whose series_id key is
absent or is the empty string, both falsy under the source check `if sid:`.
`seq`/`series_seq` are `none` until the ring assigns them on append. -/
structure Sample (α : Type) where
  series_id : Option String
  t_ms : Int
  payload : α
  seq : Option Int := none
  series_seq : Option Int := none
  deriving DecidableEq

/-- State of `class FeedRun` in server.py: the streaming ring plus global and
per-series sequence numbering and the completion markers. `series_next` models
the `_series_next_seq` dict through its read view `.get(sid, 1)`: a total map
defaulting to 1. `new_event` records whether `new_event.set()` has signalled
since the last clear. -/
structure FeedRun (α : Type) where
  ring : List (Sample α)
  ring_capacity : Nat
  live_batch : Nat
  next_seq : Int
  final_seq : Option Int
  done : Bool
  series_next : String → Int
  new_event : Bool

/-- `FeedRun.__init__(ring_capacity, live_batch)`. -/
def FeedRun.init (α : Type) (ring_capacity live_batch : Nat) : FeedRun α :=
  { ring := []
    ring_capacity := ring_capacity
    live_batch := live_batch
    next_seq := 1
    final_seq := none
    done := false
    series_next := fun _ => 1
    new_event := false }

namespace FeedRun

/-- `FeedRun.min_seq`. -/
def min_seq (r : FeedRun α) : Int :=
  if r.ring.isEmpty then r.next_seq else r.next_seq - r.ring.length

/-- `FeedRun.last_seq`. -/
def last_seq (r : FeedRun α) : Int :=
  r.next_seq - 1

/-- `deque(maxlen = cap).append x`: push on the right, silently dropping the
oldest element(s) when the deque is full. -/
def ringPush (l : List (Sample α)) (cap : Nat) (x : Sample α) : List (Sample α) :=
  let l2 := l ++ [x]
  if l2.length ≤ cap then l2 else l2.drop (l2.length - cap)

/-- `FeedRun._append(sample)`, returning both the mutated sample dict (the
source assigns `seq`/`series_seq` into the dict it was handed and pushes that
same dict into the ring) and the new run state. -/
def _appendS (r : FeedRun α) (s : Sample α) : Sample α × FeedRun α :=
  let p : Sample α × (String → Int) :=
    match s.series_id with
    | some sid =>
        ({ s with series_seq := some (r.series_next sid) },
         fun x => if x = sid then r.series_next sid + 1 else r.series_next x)
    | none => (s, r.series_next)
  let s2 := { p.1 with seq := some r.next_seq }
  (s2,
   { r with
      ring := ringPush r.ring r.ring_capacity s2
      next_seq := r.next_seq + 1
      series_next := p.2
      new_event := true })

/-- `FeedRun._append(sample)`: the state part. -/
def _append (r : FeedRun α) (s : Sample α) : FeedRun α :=
  (r._appendS s).2

/-- Appending a whole list of samples in order. -/
def appendAll (r : FeedRun α) (xs : List (Sample α)) : FeedRun α :=
  xs.foldl _append r

/-- Appending a list of samples while recording the mutated samples (with their
assigned `seq` and `series_seq`) in append order. -/
def appendTrace (r : FeedRun α) : List (Sample α) → FeedRun α × List (Sample α)
  | [] => (r, [])
  | x :: xs =>
    let rest := (r._append x).appendTrace xs
    (rest.1, (r._appendS x).1 :: rest.2)

/-- `FeedRun.get_range(start_seq, end_seq)`. The Python list comprehension
`[lst[i] for i in range(start_idx, end_idx + 1)]` is written as a
drop-then-take of the ring; the clamping guarantees the indices are in range. -/
def get_range (r : FeedRun α) (start_seq end_seq : Int) : List (Sample α) :=
  if start_seq > end_seq then []
  else
    let base := r.min_seq
    let last := r.last_seq
    let s := max start_seq base
    let e := min end_seq last
    if s > e then []
    else (r.ring.drop (s - base).toNat).take ((e - s).toNat + 1)

end FeedRun

@[simp] lemma appendS_fst_series_id (r : FeedRun α) (s : Sample α) :
    (r._appendS s).1.series_id = s.series_id := by
  cases h : s.series_id <;> simp [FeedRun._appendS, h]

@[simp] lemma appendS_fst_seq (r : FeedRun α) (s : Sample α) :
    (r._appendS s).1.seq = some r.next_seq := by
  cases h : s.series_id <;> simp [FeedRun._appendS, h]

lemma appendS_fst_series_seq (r : FeedRun α) (s : Sample α) (sid : String)
    (h : s.series_id = some sid) :
    (r._appendS s).1.series_seq = some (r.series_next sid) := by
  simp [FeedRun._appendS, h]

@[simp] lemma append_next_seq (r : FeedRun α) (s : Sample α) :
    (r._append s).next_seq = r.next_seq + 1 := by
  cases h : s.series_id <;> simp [FeedRun._append, FeedRun._appendS, h]

@[simp] lemma append_ring_capacity (r : FeedRun α) (s : Sample α) :
    (r._append s).ring_capacity = r.ring_capacity := by
  cases h : s.series_id <;> simp [FeedRun._append, FeedRun._appendS, h]

lemma append_series_next_self (r : FeedRun α) (s : Sample α) (sid : String)
    (h : s.series_id = some sid) :
    (r._append s).series_next sid = r.series_next sid + 1 := by
  simp [FeedRun._append, FeedRun._appendS, h]

lemma append_series_next_other (r : FeedRun α) (s : Sample α) (sid : String)
    (h : s.series_id ≠ some sid) :
    (r._append s).series_next sid = r.series_next sid := by
  cases hs : s.series_id with
  | none => simp [FeedRun._append, FeedRun._appendS, hs]
  | some sid2 =>
    have hne : sid ≠ sid2 := by
      intro hEq
      exact h (by simp [hs, hEq])
    simp [FeedRun._append, FeedRun._appendS, hs, hne]

lemma append_ring (r : FeedRun α) (s : Sample α) :
    (r._append s).ring = FeedRun.ringPush r.ring r.ring_capacity (r._appendS s).1 := by
  cases h : s.series_id <;> simp [FeedRun._append, FeedRun._appendS, h]

lemma ringPush_eq_drop (l : List (Sample α)) (cap : Nat) (x : Sample α) :
    FeedRun.ringPush l cap x = (l ++ [x]).drop ((l.length + 1) - cap) := by
  unfold FeedRun.ringPush
  simp only [List.length_append, List.length_singleton]
  split
  · next hle =>
    have : l.length + 1 - cap = 0 := by omega
    simp [this]
  · rfl

@[simp] lemma init_ring (c b : Nat) : (FeedRun.init α c b).ring = [] := rfl

@[simp] lemma init_ring_capacity (c b : Nat) : (FeedRun.init α c b).ring_capacity = c := rfl

@[simp] lemma init_next_seq (c b : Nat) : (FeedRun.init α c b).next_seq = 1 := rfl

@[simp] lemma init_series_next (c b : Nat) (sid : String) :
    (FeedRun.init α c b).series_next sid = 1 := rfl

lemma min_seq_of_nil (r : FeedRun α) (h : r.ring = []) : r.min_seq = r.next_seq := by
  unfold FeedRun.min_seq
  rw [if_pos]
  rw [h]
  rfl

lemma min_seq_of_ne_nil (r : FeedRun α) (h : r.ring ≠ []) :
    r.min_seq = r.next_seq - r.ring.length := by
  unfold FeedRun.min_seq
  rw [if_neg]
  intro hcontra
  exact h (by cases hr : r.ring <;> simp [hr] at hcontra ⊢)

lemma drop_append_drop {γ : Type} (l₁ l₂ : List γ) (d k : Nat) (hd : d ≤ l₁.length) :
    ((l₁.drop d) ++ l₂).drop k = (l₁ ++ l₂).drop (k + d) := by
  rw [← List.drop_append_of_le_length hd, List.drop_drop, Nat.add_comm d k]

lemma range_map_int_succ (n : Nat) (c : Int) :
    (List.range (n + 1)).map (fun (i : Nat) => some (c + (i : Int)))
      = some c :: (List.range n).map (fun (i : Nat) => some (c + 1 + (i : Int))) := by
  rw [List.range_succ_eq_map, List.map_cons, List.map_map]
  simp only [Nat.cast_zero, add_zero]
  congr 1
  refine List.map_congr_left ?_
  intro i _
  simp only [Function.comp_apply]
  push_cast
  ring_nf

@[simp] lemma appendAll_nil (r : FeedRun α) : r.appendAll [] = r := rfl

lemma appendAll_cons (r : FeedRun α) (x : Sample α) (xs : List (Sample α)) :
    r.appendAll (x :: xs) = (r._append x).appendAll xs := rfl

lemma appendAll_append (r : FeedRun α) (xs ys : List (Sample α)) :
    r.appendAll (xs ++ ys) = (r.appendAll xs).appendAll ys := by
  simp [FeedRun.appendAll, List.foldl_append]

@[simp] lemma appendAll_next_seq (r : FeedRun α) (xs : List (Sample α)) :
    (r.appendAll xs).next_seq = r.next_seq + xs.length := by
  induction xs generalizing r with
  | nil => simp
  | cons x xs ih =>
    rw [appendAll_cons, ih]
    simp
    ring_nf

@[simp] lemma appendAll_ring_capacity (r : FeedRun α) (xs : List (Sample α)) :
    (r.appendAll xs).ring_capacity = r.ring_capacity := by
  induction xs generalizing r with
  | nil => simp
  | cons x xs ih => rw [appendAll_cons, ih, append_ring_capacity]

@[simp] lemma appendTrace_fst (r : FeedRun α) (xs : List (Sample α)) :
    (r.appendTrace xs).1 = r.appendAll xs := by
  induction xs generalizing r with
  | nil => simp [FeedRun.appendTrace]
  | cons x xs ih => simp [FeedRun.appendTrace, appendAll_cons, ih]

@[simp] lemma appendTrace_length (r : FeedRun α) (xs : List (Sample α)) :
    (r.appendTrace xs).2.length = xs.length := by
  induction xs generalizing r with
  | nil => simp [FeedRun.appendTrace]
  | cons x xs ih => simp [FeedRun.appendTrace, ih]

lemma appendTrace_map_seq (r : FeedRun α) (xs : List (Sample α)) :
    (r.appendTrace xs).2.map Sample.seq
      = (List.range xs.length).map (fun (i : Nat) => some (r.next_seq + (i : Int))) := by
  induction xs generalizing r with
  | nil => simp [FeedRun.appendTrace]
  | cons x xs ih =>
    simp only [FeedRun.appendTrace, List.map_cons, List.length_cons]
    rw [appendS_fst_seq, ih]
    simp only [append_next_seq]
    rw [range_map_int_succ]

lemma appendTrace_getElem_seq (r : FeedRun α) (xs : List (Sample α)) (k : Nat)
    (hk : k < (r.appendTrace xs).2.length) :
    ((r.appendTrace xs).2[k]).seq = some (r.next_seq + (k : Int)) := by
  induction xs generalizing r k with
  | nil => simp [FeedRun.appendTrace] at hk
  | cons x xs ih =>
    cases k with
    | zero =>
      simp [FeedRun.appendTrace]
    | succ k =>
      have hk2 : k < ((r._append x).appendTrace xs).2.length := by
        simp only [FeedRun.appendTrace, List.length_cons] at hk
        omega
      simp only [FeedRun.appendTrace, List.getElem_cons_succ]
      rw [ih (r._append x) k hk2]
      simp only [append_next_seq]
      congr 1
      push_cast
      ring

lemma appendTrace_filter_series (r : FeedRun α) (xs : List (Sample α)) (sid : String) :
    ((r.appendTrace xs).2.filter (fun s => decide (s.series_id = some sid))).map
        Sample.series_seq
      = (List.range ((r.appendTrace xs).2.filter
            (fun s => decide (s.series_id = some sid))).length).map
          (fun (i : Nat) => some (r.series_next sid + (i : Int))) := by
  induction xs generalizing r with
  | nil => simp [FeedRun.appendTrace]
  | cons x xs ih =>
    simp only [FeedRun.appendTrace]
    by_cases hx : x.series_id = some sid
    · rw [List.filter_cons_of_pos (by simp [hx])]
      simp only [List.map_cons, List.length_cons]
      rw [appendS_fst_series_seq r x sid hx, ih]
      simp only [append_series_next_self r x sid hx]
      rw [range_map_int_succ]
    · rw [List.filter_cons_of_neg (by simp [hx])]
      rw [ih, append_series_next_other r x sid hx]

lemma appendAll_ring_eq (r : FeedRun α) (xs : List (Sample α))
    (h : r.ring.length ≤ r.ring_capacity) :
    (r.appendAll xs).ring
      = (r.ring ++ (r.appendTrace xs).2).drop
          ((r.ring.length + xs.length) - r.ring_capacity) := by
  induction xs generalizing r with
  | nil =>
    have h0 : r.ring.length - r.ring_capacity = 0 := by omega
    simp [FeedRun.appendTrace, h0]
  | cons x xs ih =>
    rw [appendAll_cons]
    have hring : (r._append x).ring
        = (r.ring ++ [(r._appendS x).1]).drop ((r.ring.length + 1) - r.ring_capacity) := by
      rw [append_ring, ringPush_eq_drop]
    have hlen : (r._append x).ring.length
        = (r.ring.length + 1) - ((r.ring.length + 1) - r.ring_capacity) := by
      rw [hring]
      simp
    have hcap : (r._append x).ring_capacity = r.ring_capacity := append_ring_capacity r x
    have hle : (r._append x).ring.length ≤ (r._append x).ring_capacity := by
      rw [hlen, hcap]; omega
    rw [ih (r._append x) hle, hcap, hlen, hring]
    have hd1 : (r.ring.length + 1) - r.ring_capacity ≤ (r.ring ++ [(r._appendS x).1]).length := by
      simp
    rw [drop_append_drop _ _ _ _ hd1]
    rw [List.append_assoc, List.singleton_append]
    simp only [FeedRun.appendTrace, List.length_cons]
    congr 1
    omega

/-- Claim C1: starting from a fresh `FeedRun`, the appended samples are
assigned global `seq` values `1, 2, 3, ...` contiguously in append order, and
for every `series_id` the `series_seq` values assigned to the samples of that
series are `1, 2, 3, ...` contiguously in that series' append order. -/
theorem seq_and_series_seq_dense {α : Type} (cap lb : Nat) (xs : List (Sample α)) :
    (((FeedRun.init α cap lb).appendTrace xs).2.map Sample.seq
        = (List.range xs.length).map (fun (i : Nat) => some ((i : Int) + 1)))
    ∧ ∀ sid : String,
        ((((FeedRun.init α cap lb).appendTrace xs).2.filter
              (fun s => decide (s.series_id = some sid))).map Sample.series_seq
          = (List.range (((FeedRun.init α cap lb).appendTrace xs).2.filter
                (fun s => decide (s.series_id = some sid))).length).map
              (fun (i : Nat) => some ((i : Int) + 1))) := by
  constructor
  · rw [appendTrace_map_seq]
    refine List.map_congr_left ?_
    intro i _
    simp only [init_next_seq]
    congr 1
    ring
  · intro sid
    rw [appendTrace_filter_series]
    refine List.map_congr_left ?_
    intro i _
    simp only [init_series_next]
    congr 1
    ring

/-- Is the sample's assigned `seq` inside the closed interval `[s, e]`? -/
def inRange (s e : Int) (x : Sample α) : Bool :=
  match x.seq with
  | some q => decide (s ≤ q) && decide (q ≤ e)
  | none => false

/-- Retention well-formedness of a `FeedRun` state: the ring holds samples
carrying the consecutive `seq` values `min_seq, min_seq + 1, ...` and is within
capacity. This holds for every state built by `_append`s from `__init__`
(`WF_appendAll_init` below). -/
def WF (r : FeedRun α) : Prop :=
  (∀ i (hi : i < r.ring.length), (r.ring.get ⟨i, hi⟩).seq = some (r.min_seq + (i : Int)))
  ∧ r.ring.length ≤ r.ring_capacity

instance decidableWF (r : FeedRun α) : Decidable (WF r) := by
  unfold WF
  infer_instance

lemma filter_inRange_eq_nil (l : List (Sample α)) (s e : Int) (h : e < s) :
    l.filter (inRange s e) = [] := by
  rw [List.filter_eq_nil_iff]
  intro x _
  cases hx : x.seq with
  | none => simp [inRange, hx]
  | some q =>
    simp only [inRange, hx, Bool.and_eq_true, decide_eq_true_eq, not_and]
    intro h1 h2
    omega

lemma consec_filter (l : List (Sample α)) (base s e : Int)
    (h : ∀ i (hi : i < l.length), (l.get ⟨i, hi⟩).seq = some (base + (i : Int))) :
    l.filter (inRange s e)
      = (l.drop (max s base - base).toNat).take
          ((min e (base + l.length - 1) - max s base + 1).toNat) := by
  induction l generalizing base with
  | nil => simp
  | cons x xs ih =>
    have hx0 : x.seq = some base := by
      have h0 := h 0 (by simp)
      simpa using h0
    have hxs : ∀ i (hi : i < xs.length),
        (xs.get ⟨i, hi⟩).seq = some ((base + 1) + (i : Int)) := by
      intro i hi
      have h2 := h (i + 1) (by simp only [List.length_cons]; omega)
      rw [List.get_cons_succ] at h2
      rw [h2]
      congr 1
      push_cast
      ring
    by_cases hs : s ≤ base
    · by_cases he : base ≤ e
      · rw [List.filter_cons_of_pos (by simp [inRange, hx0, hs, he])]
        have hA : (max s base - base).toNat = 0 := by omega
        have hA2 : (max s (base + 1) - (base + 1)).toNat = 0 := by omega
        have hT : (min e (base + (x :: xs).length - 1) - max s base + 1).toNat
            = (min e (base + 1 + (xs.length : Int) - 1) - max s (base + 1) + 1).toNat + 1 := by
          simp only [List.length_cons]
          push_cast
          omega
        rw [ih (base + 1) hxs, hA, hA2, List.drop_zero, List.drop_zero, hT,
          List.take_succ_cons]
      · have hT0 : (min e (base + (x :: xs).length - 1) - max s base + 1).toNat = 0 := by
          omega
        rw [hT0, List.take_zero, List.filter_eq_nil_iff]
        intro y hy
        obtain ⟨⟨i, hi⟩, hget⟩ := List.mem_iff_get.mp hy
        have hseq := h i hi
        rw [hget] at hseq
        simp only [inRange, hseq, Bool.and_eq_true, decide_eq_true_eq, not_and]
        intro h1 h2
        omega
    · rw [List.filter_cons_of_neg (by simp [inRange, hx0]; omega)]
      rw [ih (base + 1) hxs]
      have hA : (max s base - base).toNat = ((max s (base + 1) - (base + 1)).toNat) + 1 := by
        omega
      rw [hA, List.drop_succ_cons]
      congr 1
      simp only [List.length_cons]
      push_cast
      omega

lemma consec_filter_clamped (l : List (Sample α)) (base s e : Int)
    (h : ∀ i (hi : i < l.length), (l.get ⟨i, hi⟩).seq = some (base + (i : Int)))
    (hbs : base ≤ s) (hse : s ≤ e) (hee : e ≤ base + l.length - 1) :
    l.filter (inRange s e) = (l.drop (s - base).toNat).take ((e - s).toNat + 1) := by
  rw [consec_filter l base s e h]
  have h1 : (max s base - base).toNat = (s - base).toNat := by omega
  have h2 : (min e (base + l.length - 1) - max s base + 1).toNat = (e - s).toNat + 1 := by
    omega
  rw [h1, h2]

/-- Claim C2: on every retention-well-formed `FeedRun` state, `get_range(lo, hi)`
returns exactly the retained samples whose `seq` lies in
`[max(lo, min_seq), min(hi, last_seq)]`, in increasing `seq` order (the ring
order), and the empty list when that clamped interval is empty, including when
`lo > hi`. -/
theorem get_range_spec {α : Type} (r : FeedRun α) (hWF : WF r) (lo hi : Int) :
    r.get_range lo hi = r.ring.filter (inRange (max lo r.min_seq) (min hi r.last_seq)) ∧
    (min hi r.last_seq < max lo r.min_seq → r.get_range lo hi = []) ∧
    (hi < lo → r.get_range lo hi = []) := by
  have hmain : r.get_range lo hi
      = r.ring.filter (inRange (max lo r.min_seq) (min hi r.last_seq)) := by
    simp only [FeedRun.get_range]
    by_cases h1 : lo > hi
    · rw [if_pos h1, filter_inRange_eq_nil _ _ _ (by omega)]
    · rw [if_neg h1]
      by_cases h2 : max lo r.min_seq > min hi r.last_seq
      · rw [if_pos h2, filter_inRange_eq_nil _ _ _ (by omega)]
      · rw [if_neg h2]
        have hlast : r.last_seq = r.next_seq - 1 := rfl
        have hnil : r.ring ≠ [] := by
          intro hn
          have hb := min_seq_of_nil r hn
          omega
        have hbase : r.min_seq = r.next_seq - r.ring.length := min_seq_of_ne_nil r hnil
        have hlpos : 0 < r.ring.length := List.length_pos.mpr hnil
        exact (consec_filter_clamped r.ring r.min_seq (max lo r.min_seq)
          (min hi r.last_seq) hWF.1 (by omega) (by omega) (by omega)).symm
  refine ⟨hmain, ?_, ?_⟩
  · intro hlt
    rw [hmain, filter_inRange_eq_nil _ _ _ hlt]
  · intro hlt
    rw [hmain, filter_inRange_eq_nil _ _ _ (by omega)]

/-- Every state reachable by `_append`s from `FeedRun.__init__` satisfies the
retention invariant `WF`, so `get_range_spec` applies to every state the
server ever builds. -/
lemma WF_appendAll_init (cap lb : Nat) (xs : List (Sample α)) :
    WF ((FeedRun.init α cap lb).appendAll xs) := by
  have hring : ((FeedRun.init α cap lb).appendAll xs).ring
      = (((FeedRun.init α cap lb).appendTrace xs).2).drop (xs.length - cap) := by
    rw [appendAll_ring_eq _ _ (by simp)]
    simp
  have hlen : ((FeedRun.init α cap lb).appendAll xs).ring.length
      = xs.length - (xs.length - cap) := by
    rw [hring]
    simp
  have hcap : ((FeedRun.init α cap lb).appendAll xs).ring_capacity = cap := by simp
  have hnext : ((FeedRun.init α cap lb).appendAll xs).next_seq = 1 + xs.length := by simp
  constructor
  · intro i hi
    have hne : ((FeedRun.init α cap lb).appendAll xs).ring ≠ [] := by
      intro hn
      rw [hn] at hi
      simp at hi
    have hmin := min_seq_of_ne_nil _ hne
    have hi2 : i < ((((FeedRun.init α cap lb).appendTrace xs).2).drop (xs.length - cap)).length := by
      rw [← hring]
      exact hi
    have hi3 : (xs.length - cap) + i < ((FeedRun.init α cap lb).appendTrace xs).2.length := by
      simp only [List.length_drop, appendTrace_length] at hi2
      simp only [appendTrace_length]
      omega
    rw [List.get_eq_getElem]
    have h1 : ((FeedRun.init α cap lb).appendAll xs).ring[i]
        = ((((FeedRun.init α cap lb).appendTrace xs).2).drop (xs.length - cap))[i] :=
      List.getElem_of_eq hring hi
    rw [h1, List.getElem_drop, appendTrace_getElem_seq _ _ _ hi3]
    rw [hmin, hnext, hlen, init_next_seq]
    congr 1
    omega
  · rw [hlen, hcap]
    omega

/-- Claim C4: with capacity `C`, once strictly more than `C` samples have been
appended the ring holds exactly `C` samples and `min_seq = next_seq − C`;
up to that point the ring holds every appended sample. -/
theorem ring_retention {α : Type} (cap lb : Nat) (xs : List (Sample α)) :
    (cap < xs.length →
        ((FeedRun.init α cap lb).appendAll xs).ring.length = cap ∧
        ((FeedRun.init α cap lb).appendAll xs).min_seq
          = ((FeedRun.init α cap lb).appendAll xs).next_seq - (cap : Int)) ∧
    (xs.length ≤ cap →
        ((FeedRun.init α cap lb).appendAll xs).ring
          = ((FeedRun.init α cap lb).appendTrace xs).2) := by
  have hinit : (FeedRun.init α cap lb).ring.length ≤ (FeedRun.init α cap lb).ring_capacity := by
    simp
  have hring := appendAll_ring_eq (FeedRun.init α cap lb) xs hinit
  simp only [init_ring, init_ring_capacity, List.nil_append, List.length_nil,
    Nat.zero_add] at hring
  constructor
  · intro hlt
    have hlen : ((FeedRun.init α cap lb).appendAll xs).ring.length = cap := by
      rw [hring]
      simp
      omega
    refine ⟨hlen, ?_⟩
    by_cases hcap : cap = 0
    · have hnil : ((FeedRun.init α cap lb).appendAll xs).ring = [] := by
        have : ((FeedRun.init α cap lb).appendAll xs).ring.length = 0 := by rw [hlen, hcap]
        exact List.eq_nil_of_length_eq_zero this
      rw [min_seq_of_nil _ hnil, hcap]
      simp
    · have hne : ((FeedRun.init α cap lb).appendAll xs).ring ≠ [] := by
        intro hnil
        rw [hnil] at hlen
        simp at hlen
        omega
      rw [min_seq_of_ne_nil _ hne, hlen]
  · intro hle
    rw [hring]
    have h0 : xs.length - cap = 0 := by omega
    simp [h0]

/-- `chunked(seq_list, n)` from server.py: slice a list into consecutive chunks
of at most `n` elements. (With `n = 0` the Python `range` call would raise;
the server only ever calls this with `history_chunk ≥ 1`, and the `n = 0`
branch here is never reached under that precondition.) -/
def chunked (l : List β) (n : Nat) : List (List β) :=
  if hl : l.isEmpty then []
  else if hn : n = 0 then []
  else l.take n :: chunked (l.drop n) n
termination_by l.length
decreasing_by
  simp only [List.length_drop]
  have h1 : l ≠ [] := by
    cases l with
    | nil => simp at hl
    | cons a as => simp
  have h2 : 0 < l.length := List.length_pos.mpr h1
  omega

lemma chunked_flatten_aux (n : Nat) (hn : n ≠ 0) :
    ∀ (k : Nat) (l : List β), l.length ≤ k → (chunked l n).flatten = l := by
  intro k
  induction k with
  | zero =>
    intro l hl
    have h0 : l = [] := List.eq_nil_of_length_eq_zero (Nat.le_zero.mp hl)
    rw [h0, chunked]
    simp
  | succ k ih =>
    intro l hl
    by_cases he : l.isEmpty
    · have h0 : l = [] := by
        cases l with
        | nil => rfl
        | cons a as => simp at he
      rw [h0, chunked]
      simp
    · rw [chunked, dif_neg he, dif_neg hn, List.flatten_cons]
      have hpos : 0 < l.length := by
        cases l with
        | nil => simp at he
        | cons a as => simp
      have hdrop : (l.drop n).length ≤ k := by
        simp only [List.length_drop]
        omega
      rw [ih (l.drop n) hdrop, List.take_append_drop]

/-- Chunking then concatenating gives back the original list. -/
lemma chunked_flatten (l : List β) (n : Nat) (hn : n ≠ 0) :
    (chunked l n).flatten = l :=
  chunked_flatten_aux n hn l.length l le_rfl

lemma chunked_ne_nil_aux (n : Nat) (hn : n ≠ 0) :
    ∀ (k : Nat) (l : List β), l.length ≤ k → ∀ c ∈ chunked l n, c ≠ [] := by
  intro k
  induction k with
  | zero =>
    intro l hl c hc
    have h0 : l = [] := List.eq_nil_of_length_eq_zero (Nat.le_zero.mp hl)
    rw [h0, chunked] at hc
    simp at hc
  | succ k ih =>
    intro l hl c hc
    by_cases he : l.isEmpty
    · have h0 : l = [] := by
        cases l with
        | nil => rfl
        | cons a as => simp at he
      rw [h0, chunked] at hc
      simp at hc
    · rw [chunked, dif_neg he, dif_neg hn] at hc
      rw [List.mem_cons] at hc
      rcases hc with hc | hc
      · subst hc
        have hpos : 0 < l.length := by
          cases l with
          | nil => simp at he
          | cons a as => simp
        intro hnil
        have := congrArg List.length hnil
        simp only [List.length_take, List.length_nil] at this
        omega
      · have hdrop : (l.drop n).length ≤ k := by
          have hpos : 0 < l.length := by
            cases l with
            | nil => simp at he
            | cons a as => simp
          simp only [List.length_drop]
          omega
        exact ih (l.drop n) hdrop c hc

/-- Every chunk produced by `chunked` with a positive chunk size is nonempty. -/
lemma chunked_ne_nil (l : List β) (n : Nat) (hn : n ≠ 0) :
    ∀ c ∈ chunked l n, c ≠ [] :=
  chunked_ne_nil_aux n hn l.length l le_rfl

/-- The frames the server emits towards one client (before wire encoding).
Mirrors the dict shapes built in `WSServer.handler`, `_heartbeat_loop` and
`_live_loop`. -/
inductive Frame (α : Type) where
  | error (reason : String)
  | init_begin (wm_seq min_seq : Int) (ring_capacity : Nat)
  | history (samples : List (Sample α))
  | delta (samples : List (Sample α))
  | init_complete (resume_from : Int) (resume_truncated : Bool)
  | heartbeat (ts_ms : Int)
  | live (samples : List (Sample α))
  | test_done (final_seq : Option Int)
  deriving DecidableEq

/-- The resume → init_begin → history → delta → init_complete phase of
`WSServer.handler` (lines after a valid resume frame), as a function of the
run state `run0` at snapshot time. Each `await self._send(...)` is a
suspension point at which the producer may append more samples:
`a1` are the appends that land while `init_begin` is being sent (before
`run.get_range(start, wm_seq)` runs), and `a2` those that land while the
history batches are being sent (before `delta_end = run.last_seq()` is read).
Appends during the delta/init_complete sends do not affect any emitted frame.
Returns the emitted frames, the run state at handoff, and `delta_end`. -/
def handlerInit (run0 : FeedRun α) (from_seq : Int) (history_chunk : Nat)
    (a1 a2 : List (Sample α)) : List (Frame α) × FeedRun α × Int :=
  let min_seq := run0.min_seq
  let wm_seq := run0.last_seq
  let start := max from_seq min_seq
  let resume_truncated := decide (from_seq < min_seq)
  let run1 := run0.appendAll a1
  let histFrames :=
    if start ≤ wm_seq then
      (chunked (run1.get_range start wm_seq) history_chunk).map Frame.history
    else []
  let run2 := run1.appendAll a2
  let delta_end := run2.last_seq
  let deltaFrames :=
    if wm_seq < delta_end then
      (chunked (run2.get_range (wm_seq + 1) delta_end) history_chunk).map Frame.delta
    else []
  (Frame.init_begin wm_seq min_seq run0.ring_capacity ::
      (histFrames ++ deltaFrames ++ [Frame.init_complete delta_end resume_truncated]),
   run2, delta_end)

lemma get_range_nil_of_gt (r : FeedRun α) (lo hi : Int) (h : hi < lo) :
    r.get_range lo hi = [] := by
  unfold FeedRun.get_range
  rw [if_pos (by omega)]

/-- Claim C3: on a valid resume with `from_seq = N`, the handler snapshots
`wm_seq = last_seq()` and `min_seq = min_seq()`, computes
`start = max(N, min_seq)` and `resume_truncated = (N < min_seq)`, emits
`init_begin` carrying exactly `wm_seq`, `min_seq` and `ring_capacity`, then the
history frames covering `[start, wm_seq]`, then the delta frames covering
`(wm_seq, delta_end]`, and finally `init_complete` carrying exactly
`resume_from = delta_end` and `resume_truncated`. -/
theorem handler_resume_protocol {α : Type} (run0 : FeedRun α) (N : Int) (chunk : Nat)
    (hc : chunk ≠ 0) (a1 a2 : List (Sample α)) :
    ∃ hb db : List (List (Sample α)),
      (handlerInit run0 N chunk a1 a2).1
        = Frame.init_begin run0.last_seq run0.min_seq run0.ring_capacity ::
            (hb.map Frame.history ++ db.map Frame.delta ++
              [Frame.init_complete ((run0.appendAll a1).appendAll a2).last_seq
                (decide (N < run0.min_seq))]) ∧
      hb.flatten = (run0.appendAll a1).get_range (max N run0.min_seq) run0.last_seq ∧
      db.flatten = ((run0.appendAll a1).appendAll a2).get_range (run0.last_seq + 1)
        ((run0.appendAll a1).appendAll a2).last_seq ∧
      (handlerInit run0 N chunk a1 a2).2.2 = ((run0.appendAll a1).appendAll a2).last_seq := by
  refine ⟨if max N run0.min_seq ≤ run0.last_seq then
            chunked ((run0.appendAll a1).get_range (max N run0.min_seq) run0.last_seq) chunk
          else [],
          if run0.last_seq < ((run0.appendAll a1).appendAll a2).last_seq then
            chunked (((run0.appendAll a1).appendAll a2).get_range (run0.last_seq + 1)
              ((run0.appendAll a1).appendAll a2).last_seq) chunk
          else [], ?_, ?_, ?_, ?_⟩
  · simp only [handlerInit]
    by_cases h1 : max N run0.min_seq ≤ run0.last_seq <;>
      by_cases h2 : run0.last_seq < ((run0.appendAll a1).appendAll a2).last_seq <;>
        simp [h1, h2]
  · by_cases h1 : max N run0.min_seq ≤ run0.last_seq
    · rw [if_pos h1, chunked_flatten _ _ hc]
    · rw [if_neg h1, get_range_nil_of_gt _ _ _ (by omega)]
      rfl
  · by_cases h2 : run0.last_seq < ((run0.appendAll a1).appendAll a2).last_seq
    · rw [if_pos h2, chunked_flatten _ _ hc]
    · rw [if_neg h2, get_range_nil_of_gt _ _ _ (by omega)]
      rfl
  · simp [handlerInit]

/-- Python truthiness coercion `x or y` for `x : Optional[int]`: `None` and
`0` are falsy, every other int is truthy (models `run.final_seq or last_sent`
in `_live_loop`). -/
def pyOrInt (x : Option Int) (y : Int) : Int :=
  match x with
  | none => y
  | some v => if v = 0 then y else v

/-- The inner batching loop of `WSServer._live_loop`
(`while idx < n: batch = to_send[idx : idx + live_batch]; if not batch: break;
... await self._send(live batch); last_sent = batch[-1]["seq"]`).
The per-series gap bookkeeping and log prints touch no emitted data and are
omitted. Ring samples always carry `seq` (invariant `WF`), so `batch[-1]["seq"]`
is read with a default of 0 standing for the impossible missing-key case.
Returns the emitted `live` frames and the final `last_sent`. -/
def batchLoop (to_send : List (Sample α)) (live_batch : Nat) (last_sent : Int) :
    List (Frame α) × Int :=
  if hts : to_send.isEmpty then ([], last_sent)
  else
    let batch := to_send.take live_batch
    if hb : batch.isEmpty then ([], last_sent)
    else
      let ls := ((batch.getLast (by
        cases hbb : batch with
        | nil => rw [hbb] at hb; simp at hb
        | cons a as => simp)).seq).getD 0
      let rest := batchLoop (to_send.drop live_batch) live_batch ls
      (Frame.live batch :: rest.1, rest.2)
termination_by to_send.length
decreasing_by
  simp only [List.length_drop]
  have h1 : 0 < to_send.length := by
    cases to_send with
    | nil => simp at hts
    | cons a as => simp
  have hb2 : ¬ (to_send.take live_batch).isEmpty = true := hb
  have h2 : live_batch ≠ 0 := by
    intro h0
    rw [h0] at hb2
    simp at hb2
  omega

/-- One iteration of the outer `while True` loop of `WSServer._live_loop`,
started with `last_sent = after_seq`. Returns the frames emitted during the
iteration and `some new_last_sent` if the loop continues (either after a
`wait_for_new_after` wake or after draining the fetched range), or `none` if
it emitted `test_done` and returned. -/
def liveIter (run : FeedRun α) (live_batch : Nat) (last_sent : Int) :
    List (Frame α) × Option Int :=
  if run.done = true ∧ last_sent ≥ pyOrInt run.final_seq last_sent then
    ([Frame.test_done run.final_seq], none)
  else if run.last_seq ≤ last_sent then
    ([], some last_sent)
  else
    let to_send := run.get_range (last_sent + 1) run.last_seq
    let res := batchLoop to_send live_batch last_sent
    (res.1, some res.2)

/-- Wire format selected at startup (`--ws-format`). -/
inductive WsFormat where
  | text
  | binary
  deriving DecidableEq

/-- A message actually written to the websocket transport. The byte layout of
binary data frames (`_encode_samples_binary`) is abstracted to its frame code
and sample list; no claim depends on the byte-level encoding. -/
inductive WireMsg (α : Type) where
  | text (f : Frame α)
  | binaryData (code : Nat) (samples : List (Sample α))
  deriving DecidableEq

/-- `WSServer._send(ws, obj)`: in binary mode, frames of type
history/delta/live are sent as one binary blob, except that an empty (falsy)
`samples` list produces no wire message at all (`if not samples: return`);
every other frame is sent as JSON text. Returns the wire message written, if
any. (A transport exception is caught and swallowed; see `serverSend`.) -/
def sendWire (fmt : WsFormat) (f : Frame α) : Option (WireMsg α) :=
  match fmt, f with
  | WsFormat.binary, Frame.history s =>
    if s.isEmpty then none else some (WireMsg.binaryData 1 s)
  | WsFormat.binary, Frame.delta s =>
    if s.isEmpty then none else some (WireMsg.binaryData 2 s)
  | WsFormat.binary, Frame.live s =>
    if s.isEmpty then none else some (WireMsg.binaryData 3 s)
  | _, g => some (WireMsg.text g)

/-- The samples carried by a data frame (`history`/`delta`/`live`), if the
frame is a data frame. -/
def dataFrameSamples : Frame α → Option (List (Sample α))
  | Frame.history s => some s
  | Frame.delta s => some s
  | Frame.live s => some s
  | _ => none

/-- Is this wire message a data frame with an empty samples list? -/
def wireIsEmptyData : WireMsg α → Bool
  | WireMsg.text f =>
    match dataFrameSamples f with
    | some s => s.isEmpty
    | none => false
  | WireMsg.binaryData _ s => s.isEmpty

lemma handlerInit_frames (run0 : FeedRun α) (N : Int) (chunk : Nat)
    (a1 a2 : List (Sample α)) :
    (handlerInit run0 N chunk a1 a2).1
      = Frame.init_begin run0.last_seq run0.min_seq run0.ring_capacity ::
          ((if max N run0.min_seq ≤ run0.last_seq then
              chunked ((run0.appendAll a1).get_range (max N run0.min_seq) run0.last_seq) chunk
            else []).map Frame.history
           ++ (if run0.last_seq < ((run0.appendAll a1).appendAll a2).last_seq then
                chunked (((run0.appendAll a1).appendAll a2).get_range (run0.last_seq + 1)
                  ((run0.appendAll a1).appendAll a2).last_seq) chunk
              else []).map Frame.delta
           ++ [Frame.init_complete ((run0.appendAll a1).appendAll a2).last_seq
                (decide (N < run0.min_seq))]) := by
  by_cases h1 : max N run0.min_seq ≤ run0.last_seq <;>
    by_cases h2 : run0.last_seq < ((run0.appendAll a1).appendAll a2).last_seq <;>
      simp [handlerInit, h1, h2]

lemma mem_ite_chunked {c : List (Sample α)} {P : Prop} [Decidable P]
    {l : List (Sample α)} {n : Nat} (hn : n ≠ 0)
    (hmem : c ∈ if P then chunked l n else []) : c ≠ [] := by
  by_cases hP : P
  · rw [if_pos hP] at hmem
    exact chunked_ne_nil _ _ hn c hmem
  · rw [if_neg hP] at hmem
    simp at hmem

lemma batchLoop_frames_ne_nil_aux (live_batch : Nat) :
    ∀ (k : Nat) (to_send : List (Sample α)) (last_sent : Int), to_send.length ≤ k →
      ∀ f ∈ (batchLoop to_send live_batch last_sent).1, dataFrameSamples f ≠ some [] := by
  intro k
  induction k with
  | zero =>
    intro to_send last_sent hl f hf
    have h0 : to_send = [] := List.eq_nil_of_length_eq_zero (Nat.le_zero.mp hl)
    rw [h0, batchLoop] at hf
    simp at hf
  | succ k ih =>
    intro to_send last_sent hl f hf
    by_cases hts : to_send.isEmpty
    · rw [batchLoop, dif_pos hts] at hf
      simp at hf
    · rw [batchLoop, dif_neg hts] at hf
      by_cases hb : (to_send.take live_batch).isEmpty
      · rw [dif_pos hb] at hf
        simp at hf
      · rw [dif_neg hb] at hf
        rw [List.mem_cons] at hf
        rcases hf with hf | hf
        · subst hf
          simp only [dataFrameSamples, ne_eq, Option.some.injEq]
          intro hnil
          rw [hnil] at hb
          simp at hb
        · have hpos : 0 < to_send.length := by
            cases to_send with
            | nil => simp at hts
            | cons a as => simp
          have hlbpos : live_batch ≠ 0 := by
            intro h0
            rw [h0] at hb
            simp at hb
          have hlt : (to_send.drop live_batch).length ≤ k := by
            simp only [List.length_drop]
            omega
          exact ih (to_send.drop live_batch) _ hlt f hf

lemma batchLoop_frames_ne_nil (to_send : List (Sample α)) (live_batch : Nat)
    (last_sent : Int) :
    ∀ f ∈ (batchLoop to_send live_batch last_sent).1, dataFrameSamples f ≠ some [] :=
  batchLoop_frames_ne_nil_aux live_batch to_send.length to_send last_sent le_rfl

/-- Claim C5: in every execution of the session handler and the live sender,
and in both wire formats, no `history`, `delta` or `live` data frame with an
empty samples list is ever written to the transport: every data frame the
handler or the live sender hands to `_send` carries a nonempty samples list,
and in binary mode `_send` additionally drops empty data frames itself. -/
theorem no_empty_data_frames (α : Type) (chunk : Nat) (hc : chunk ≠ 0) :
    (∀ (run0 : FeedRun α) (N : Int) (a1 a2 : List (Sample α)),
        ∀ f ∈ (handlerInit run0 N chunk a1 a2).1, dataFrameSamples f ≠ some []) ∧
    (∀ (run : FeedRun α) (lb : Nat) (ls : Int),
        ∀ f ∈ (liveIter run lb ls).1, dataFrameSamples f ≠ some []) ∧
    (∀ (fmt : WsFormat) (f : Frame α) (m : WireMsg α),
        dataFrameSamples f ≠ some [] → sendWire fmt f = some m →
          wireIsEmptyData m = false) ∧
    (∀ s : List (Sample α), s.isEmpty →
        sendWire WsFormat.binary (Frame.history s) = none ∧
        sendWire WsFormat.binary (Frame.delta s) = none ∧
        sendWire WsFormat.binary (Frame.live s) = none) := by
  refine ⟨?_, ?_, ?_, ?_⟩
  · intro run0 N a1 a2 f hf
    rw [handlerInit_frames, List.mem_cons] at hf
    rcases hf with hf | hf
    · subst hf
      simp [dataFrameSamples]
    · rw [List.mem_append, List.mem_append] at hf
      rcases hf with (hf | hf) | hf
      · rw [List.mem_map] at hf
        obtain ⟨c, hc1, hc2⟩ := hf
        subst hc2
        simp only [dataFrameSamples, ne_eq, Option.some.injEq]
        exact mem_ite_chunked hc hc1
      · rw [List.mem_map] at hf
        obtain ⟨c, hc1, hc2⟩ := hf
        subst hc2
        simp only [dataFrameSamples, ne_eq, Option.some.injEq]
        exact mem_ite_chunked hc hc1
      · rw [List.mem_singleton] at hf
        subst hf
        simp [dataFrameSamples]
  · intro run lb ls f hf
    unfold liveIter at hf
    by_cases h1 : run.done = true ∧ ls ≥ pyOrInt run.final_seq ls
    · rw [if_pos h1] at hf
      simp only [List.mem_singleton] at hf
      subst hf
      simp [dataFrameSamples]
    · rw [if_neg h1] at hf
      by_cases h2 : run.last_seq ≤ ls
      · rw [if_pos h2] at hf
        simp at hf
      · rw [if_neg h2] at hf
        exact batchLoop_frames_ne_nil _ _ _ f hf
  · intro fmt f m hne hsend
    cases fmt with
    | text =>
      cases f <;>
        (simp only [sendWire, Option.some.injEq] at hsend
         subst hsend
         simp_all [wireIsEmptyData, dataFrameSamples, List.isEmpty_iff])
    | binary =>
      cases f with
      | history s =>
        by_cases hs : s.isEmpty
        · simp only [sendWire, if_pos hs] at hsend
          simp at hsend
        · simp only [sendWire, if_neg hs, Option.some.injEq] at hsend
          subst hsend
          simpa [wireIsEmptyData] using hs
      | delta s =>
        by_cases hs : s.isEmpty
        · simp only [sendWire, if_pos hs] at hsend
          simp at hsend
        · simp only [sendWire, if_neg hs, Option.some.injEq] at hsend
          subst hsend
          simpa [wireIsEmptyData] using hs
      | live s =>
        by_cases hs : s.isEmpty
        · simp only [sendWire, if_pos hs] at hsend
          simp at hsend
        · simp only [sendWire, if_neg hs, Option.some.injEq] at hsend
          subst hsend
          simpa [wireIsEmptyData] using hs
      | error reason =>
        simp only [sendWire, Option.some.injEq] at hsend
        subst hsend
        simp [wireIsEmptyData, dataFrameSamples]
      | init_begin a b c =>
        simp only [sendWire, Option.some.injEq] at hsend
        subst hsend
        simp [wireIsEmptyData, dataFrameSamples]
      | init_complete a b =>
        simp only [sendWire, Option.some.injEq] at hsend
        subst hsend
        simp [wireIsEmptyData, dataFrameSamples]
      | heartbeat t =>
        simp only [sendWire, Option.some.injEq] at hsend
        subst hsend
        simp [wireIsEmptyData, dataFrameSamples]
      | test_done fs =>
        simp only [sendWire, Option.some.injEq] at hsend
        subst hsend
        simp [wireIsEmptyData, dataFrameSamples]
  · intro s hs
    refine ⟨?_, ?_, ?_⟩ <;> simp [sendWire, hs]

/-- Claim C10: whenever `run.done` is true and `run.final_seq` is `None` or
`0`, the live-loop termination test `last_sent >= (run.final_seq or last_sent)`
holds trivially, so the next iteration emits `test_done` carrying
`run.final_seq` and terminates — even when retained samples beyond `last_sent`
remain unsent. -/
theorem live_done_falsy_final_seq {α : Type} (run : FeedRun α) (lb : Nat)
    (last_sent : Int) (hdone : run.done = true)
    (hfs : run.final_seq = none ∨ run.final_seq = some 0) :
    liveIter run lb last_sent = ([Frame.test_done run.final_seq], none) := by
  have hor : pyOrInt run.final_seq last_sent = last_sent := by
    rcases hfs with h | h <;> simp [pyOrInt, h]
  unfold liveIter
  rw [if_pos ⟨hdone, by rw [hor]⟩]

/-- One transport-level `ws.send` attempt: `transportOk = false` models a
transport that raises (for example a closed connection). -/
def wsSendText (transportOk : Bool) : Except String Unit :=
  if transportOk then Except.ok () else Except.error "ConnectionClosed"

/-- The control flow of `WSServer._send` around the transport write:
`try: await ws.send(...) except Exception: return`. Whatever the transport
does, `_send` returns normally — a transport exception is caught and
swallowed, never propagated to the caller. -/
def serverSend (transportOk : Bool) : Except String Unit :=
  match wsSendText transportOk with
  | Except.ok u => Except.ok u
  | Except.error _ => Except.ok ()

/-- `WSServer._heartbeat_loop` (`while True: await asyncio.sleep(...);
await self._send(heartbeat)`), driven by a finite schedule giving the
transport state at each iteration. An iteration ends the task only if an
exception escapes `_send`; the returned list records the transport state of
every send attempt actually made. -/
def heartbeatAttempts : List Bool → List Bool
  | [] => []
  | ok :: rest =>
    match serverSend ok with
    | Except.ok _ => ok :: heartbeatAttempts rest
    | Except.error _ => [ok]

/-- Claim C6 counterexample: with the transport already failed
(`transportOk = false`), the first heartbeat send raises inside `ws.send`,
yet `_send` swallows the exception and returns normally, and the heartbeat
loop attempts a second send on the same connection — contradicting the claim
that after a send failure no further frames are attempted and the session
terminates. -/
theorem send_failure_not_terminating_cex :
    wsSendText false = Except.error "ConnectionClosed" ∧
    serverSend false = Except.ok () ∧
    heartbeatAttempts [false, false] = [false, false] ∧
    heartbeatAttempts [false, false] ≠ [false] :=
  ⟨rfl, rfl, rfl, by decide⟩

/-- Claim C6 (amended): a transport send failure does not terminate the
session: `_send` catches the exception and returns normally, so every
scheduled loop iteration still attempts its send, regardless of earlier
failures. The peer-task cancellation and the transport close in the handler
happen only once the heartbeat or live task completes for some other
reason. -/
theorem send_failure_swallowed (oks : List Bool) :
    (∀ ok : Bool, serverSend ok = Except.ok ()) ∧ heartbeatAttempts oks = oks := by
  constructor
  · intro ok
    cases ok <;> rfl
  · induction oks with
    | nil => rfl
    | cons ok rest ih =>
      cases ok <;> simp [heartbeatAttempts, serverSend, wsSendText, ih]

/-- A parsed JSON value, as produced by `json.loads`. Numbers are modelled as
integers: the resume protocol only carries integer sequence numbers. -/
inductive Json where
  | null
  | bool (b : Bool)
  | int (n : Int)
  | str (s : String)
  | arr (xs : List Json)
  | obj (fields : List (String × Json))

/-- `dict.get(key)` on a parsed JSON object (a parsed object has at most one
value per key; lookup returns the first binding). -/
def jsonGet (fields : List (String × Json)) (k : String) : Option Json :=
  (fields.find? (fun p => decide (p.1 = k))).map (fun p => p.2)

/-- Python truthiness of a parsed JSON value: `None`, `False`, `0`, the empty
string, the empty list and the empty dict are falsy. -/
def pyTruthy : Json → Bool
  | Json.null => false
  | Json.bool b => b
  | Json.int n => decide (n ≠ 0)
  | Json.str s => decide (s ≠ "")
  | Json.arr xs => !xs.isEmpty
  | Json.obj fs => !fs.isEmpty

/-- `int(x)` on a parsed JSON value: ints pass through, bools coerce, numeric
strings parse; `None`, lists and dicts raise (`none`). -/
def pyToInt : Json → Option Int
  | Json.int n => some n
  | Json.bool b => some (if b then 1 else 0)
  | Json.str s => s.toInt?
  | _ => none

/-- `from_seq = int(msg.get("from_seq") or 1)`: an absent key and a JSON
`null` both give Python `None`; falsy values (`None`, `0`, ...) fall through
`or` to the default `1`; a truthy value goes through `int(...)`, which may
raise (`none`). -/
def resumeFromSeq (fields : List (String × Json)) : Option Int :=
  let v := (jsonGet fields "from_seq").getD Json.null
  if pyTruthy v then pyToInt v else some 1

/-- `msg.get("type") == "resume"` on a parsed object. -/
def isResumeType : Option Json → Bool
  | some (Json.str s) => decide (s = "resume")
  | _ => false

/-- `isinstance(msg, dict) and msg.get("type") == "resume"`. -/
def isResumeMsg : Json → Bool
  | Json.obj fields => isResumeType (jsonGet fields "type")
  | _ => false

/-- Result of the AWAIT_RESUME phase of `WSServer.handler`: `errorClose r`
means a text `error` frame with reason `r` is sent and the connection is then
closed; `crash` means an exception escaped the handler (no error frame);
`proceed n` means the session continues with `from_seq = n`. -/
inductive ResumeOutcome where
  | errorClose (reason : String)
  | crash
  | proceed (from_seq : Int)
  deriving DecidableEq

/-- The first-frame handling of `WSServer.handler` (state AWAIT_RESUME).
`recv = none` models the 15-second timeout firing; `recv = some none` a first
frame that `json.loads` rejects; `recv = some (some msg)` a parsed first
frame. `runExists` is whether `self.run` is set. The error reasons are the
exact strings of the source. -/
def awaitResume (recv : Option (Option Json)) (runExists : Bool) : ResumeOutcome :=
  match recv with
  | none => ResumeOutcome.errorClose "first frame must be resume (timeout)"
  | some none => ResumeOutcome.errorClose "invalid JSON for first frame"
  | some (some msg) =>
    match msg with
    | Json.obj fields =>
      if isResumeType (jsonGet fields "type") then
        match resumeFromSeq fields with
        | none => ResumeOutcome.crash
        | some n =>
          if runExists then ResumeOutcome.proceed n
          else ResumeOutcome.errorClose "no active run"
      else ResumeOutcome.errorClose "first frame must be resume"
    | _ => ResumeOutcome.errorClose "first frame must be resume"

/-- Claim C7: every listed failure mode of the first frame — timeout,
unparsable JSON, a frame that is not an object with type "resume", or no
active run — makes the handler send a text `error` frame (with the reason the
source uses) before closing; none of these paths proceeds silently. -/
theorem first_frame_errors (runExists : Bool) :
    (awaitResume none runExists
        = ResumeOutcome.errorClose "first frame must be resume (timeout)") ∧
    (awaitResume (some none) runExists
        = ResumeOutcome.errorClose "invalid JSON for first frame") ∧
    (∀ msg : Json, isResumeMsg msg = false →
        awaitResume (some (some msg)) runExists
          = ResumeOutcome.errorClose "first frame must be resume") ∧
    (∀ (fields : List (String × Json)) (n : Int),
        isResumeMsg (Json.obj fields) = true → resumeFromSeq fields = some n →
          awaitResume (some (some (Json.obj fields))) false
            = ResumeOutcome.errorClose "no active run") := by
  refine ⟨rfl, rfl, ?_, ?_⟩
  · intro msg hmsg
    cases msg with
    | obj fields =>
      simp only [isResumeMsg] at hmsg
      simp [awaitResume, hmsg]
    | null => rfl
    | bool b => rfl
    | int n => rfl
    | str s => rfl
    | arr xs => rfl
  · intro fields n hty hfs
    simp only [isResumeMsg] at hty
    simp [awaitResume, hty, hfs]

/-- Claim C9: a resume whose `from_seq` is absent, `null` or `0` is not
treated as a protocol violation: `int(msg.get("from_seq") or 1)` yields 1 and
the handler proceeds, serving the session as a resume from sequence 1. -/
theorem resume_from_seq_default (fields : List (String × Json))
    (hty : isResumeType (jsonGet fields "type") = true)
    (hfs : jsonGet fields "from_seq" = none ∨ jsonGet fields "from_seq" = some Json.null
      ∨ jsonGet fields "from_seq" = some (Json.int 0)) :
    awaitResume (some (some (Json.obj fields))) true = ResumeOutcome.proceed 1 := by
  have hv : resumeFromSeq fields = some 1 := by
    rcases hfs with h | h | h <;> simp [resumeFromSeq, h, pyTruthy]
  simp [awaitResume, hty, hv]

/-- The drain epilogue of `playback_from_memory` (also its empty-input fast
path): `run.done = True; run.final_seq = run.last_seq(); run.new_event.set()`. -/
def playbackFinish (run : FeedRun α) : FeedRun α :=
  { run with done := true, final_seq := some run.last_seq, new_event := true }

/-- The emission loop of `playback_from_memory`: on each wake the driver
appends the next `c` input samples as fresh dict copies
(`for s in samples[idx:end]: run._append(dict(s))` with
`end = min(idx + c, n)`). The schedule `chunks` abstracts the per-wake
emission count: `max(1, run.live_batch * 4)` per wake in the unpaced branch,
`int(carry)` in the paced branch; a zero entry models a wake with no
accumulated credit (`to_emit <= 0`), which just sleeps and retries. Returns
the run and the index reached when the schedule ends or the input drains. -/
def emitLoop (run : FeedRun α) (samples : List (Sample α)) (idx : Nat) :
    List Nat → FeedRun α × Nat
  | [] => (run, idx)
  | c :: rest =>
    if samples.length ≤ idx then (run, idx)
    else if c = 0 then emitLoop run samples idx rest
    else emitLoop (run.appendAll ((samples.drop idx).take c)) samples
      (min (idx + c) samples.length) rest

/-- `playback_from_memory(run, samples, emit_sps)`, driven by the abstract
wake schedule `chunks`. The Python loop always drains its input (wall-clock
time keeps producing credit); a schedule too short to drain leaves the loop
mid-flight, reported here as `false` in the second component. On drain —
including the `n == 0` fast path — the run is marked done, `final_seq` is set
to `last_seq()`, and the new-data event is signalled. -/
def playback_from_memory (run : FeedRun α) (samples : List (Sample α))
    (chunks : List Nat) : FeedRun α × Bool :=
  if samples.length = 0 then (playbackFinish run, true)
  else
    let res := emitLoop run samples 0 chunks
    if samples.length ≤ res.2 then (playbackFinish res.1, true) else (res.1, false)

lemma emitLoop_spec (samples : List (Sample α)) (chunks : List Nat) :
    ∀ (run : FeedRun α) (idx : Nat), idx ≤ samples.length →
      idx ≤ (emitLoop run samples idx chunks).2 ∧
      (emitLoop run samples idx chunks).2 ≤ samples.length ∧
      (emitLoop run samples idx chunks).1
        = run.appendAll ((samples.drop idx).take ((emitLoop run samples idx chunks).2 - idx)) := by
  induction chunks with
  | nil =>
    intro run idx hidx
    refine ⟨le_rfl, hidx, ?_⟩
    simp [emitLoop]
  | cons c rest ih =>
    intro run idx hidx
    by_cases h1 : samples.length ≤ idx
    · simp only [emitLoop, if_pos h1]
      exact ⟨le_rfl, hidx, by simp⟩
    · by_cases h2 : c = 0
      · simp only [emitLoop, if_neg h1, if_pos h2]
        exact ih run idx hidx
      · simp only [emitLoop, if_neg h1, if_neg h2]
        have hle2 : min (idx + c) samples.length ≤ samples.length := by omega
        obtain ⟨hA, hB, hC⟩ := ih (run.appendAll ((samples.drop idx).take c))
          (min (idx + c) samples.length) hle2
        set r2 := (emitLoop (run.appendAll ((samples.drop idx).take c)) samples
          (min (idx + c) samples.length) rest).2 with hr2
        refine ⟨by omega, hB, ?_⟩
        rw [hC, ← appendAll_append]
        congr 1
        have hdd : samples.drop (min (idx + c) samples.length)
            = (samples.drop idx).drop (min (idx + c) samples.length - idx) := by
          rw [List.drop_drop]
          congr 1
          omega
        rw [hdd]
        have htk : (samples.drop idx).take c
            = (samples.drop idx).take (min (idx + c) samples.length - idx) := by
          rw [List.take_eq_take]
          simp only [List.length_drop]
          omega
        rw [htk, ← List.take_add]
        congr 1
        omega

/-- Claim C8: whenever `playback_from_memory` drains its input — including the
empty input — every input sample has been appended to the ring exactly once,
in input order, and the driver then sets `run.done = true`, sets
`run.final_seq` to the ring's `last_seq()` at that moment, and signals the
new-data event so that waiters wake. -/
theorem playback_drain {α : Type} (run : FeedRun α) (samples : List (Sample α))
    (chunks : List Nat)
    (hdrain : (playback_from_memory run samples chunks).2 = true) :
    (playback_from_memory run samples chunks).1
        = playbackFinish (run.appendAll samples) ∧
    (playback_from_memory run samples chunks).1.done = true ∧
    (playback_from_memory run samples chunks).1.final_seq
        = some (run.appendAll samples).last_seq ∧
    (playback_from_memory run samples chunks).1.new_event = true ∧
    (playback_from_memory run samples chunks).1.ring = (run.appendAll samples).ring := by
  have hmain : (playback_from_memory run samples chunks).1
      = playbackFinish (run.appendAll samples) := by
    by_cases h0 : samples.length = 0
    · have hnil : samples = [] := List.eq_nil_of_length_eq_zero h0
      simp only [playback_from_memory, if_pos h0, hnil]
      simp
    · obtain ⟨hA, hB, hC⟩ := emitLoop_spec samples chunks run 0 (by omega)
      by_cases h1 : samples.length ≤ (emitLoop run samples 0 chunks).2
      · have hr2 : (emitLoop run samples 0 chunks).2 = samples.length := by omega
        simp only [playback_from_memory, if_neg h0, if_pos h1]
        rw [hC, hr2]
        simp
      · exfalso
        simp only [playback_from_memory, if_neg h0, if_neg h1] at hdrain
        simp at hdrain
  refine ⟨hmain, ?_, ?_, ?_, ?_⟩ <;> rw [hmain] <;> simp [playbackFinish]

/-- A concrete sample for the example evaluations below. -/
def exS (sid : Option String) (t : Int) : Sample Unit :=
  { series_id := sid, t_ms := t, payload := () }

/-- A concrete run: capacity 3, four appends, so the ring retains seq 2..4. -/
def exRun : FeedRun Unit :=
  (FeedRun.init Unit 3 1).appendAll
    [exS (some "a") 1, exS none 2, exS (some "a") 3, exS (some "b") 4]

def exXs3 : List (Sample Unit) := [exS (some "a") 1, exS none 2, exS (some "a") 3]

def exXs2 : List (Sample Unit) := [exS (some "a") 1, exS none 2]

def exPbSamples : List (Sample Unit) := [exS (some "a") 1, exS (some "b") 2, exS none 3]

/-- A run that finished an empty playback (`done = true`, `final_seq = 0`)
and then received two more appends, so retained samples remain unsent. -/
def exDoneRun : FeedRun Unit :=
  (playback_from_memory (FeedRun.init Unit 4 1) [] []).1.appendAll
    [exS (some "a") 1, exS (some "a") 2]

theorem get_range_spec_witness :
    WF exRun ∧
    exRun.get_range 1 3
      = exRun.ring.filter (inRange (max 1 exRun.min_seq) (min 3 exRun.last_seq)) :=
  ⟨by decide, (get_range_spec exRun (by decide) 1 3).1⟩

theorem handler_resume_protocol_witness :
    (2 : Nat) ≠ 0 ∧
    ∃ hb db : List (List (Sample Unit)),
      (handlerInit exRun 1 2 [exS (some "a") 5] []).1
        = Frame.init_begin exRun.last_seq exRun.min_seq exRun.ring_capacity ::
            (hb.map Frame.history ++ db.map Frame.delta ++
              [Frame.init_complete ((exRun.appendAll [exS (some "a") 5]).appendAll []).last_seq
                (decide ((1 : Int) < exRun.min_seq))]) ∧
      hb.flatten
        = (exRun.appendAll [exS (some "a") 5]).get_range (max 1 exRun.min_seq) exRun.last_seq ∧
      db.flatten
        = ((exRun.appendAll [exS (some "a") 5]).appendAll []).get_range (exRun.last_seq + 1)
            ((exRun.appendAll [exS (some "a") 5]).appendAll []).last_seq ∧
      (handlerInit exRun 1 2 [exS (some "a") 5] []).2.2
        = ((exRun.appendAll [exS (some "a") 5]).appendAll []).last_seq :=
  ⟨by decide, handler_resume_protocol exRun 1 2 (by decide) [exS (some "a") 5] []⟩

theorem ring_retention_witness :
    (2 < exXs3.length) ∧
    (((FeedRun.init Unit 2 1).appendAll exXs3).ring.length = 2 ∧
      ((FeedRun.init Unit 2 1).appendAll exXs3).min_seq
        = ((FeedRun.init Unit 2 1).appendAll exXs3).next_seq - ((2 : Nat) : Int)) ∧
    (exXs2.length ≤ 2) ∧
    ((FeedRun.init Unit 2 1).appendAll exXs2).ring
      = ((FeedRun.init Unit 2 1).appendTrace exXs2).2 :=
  ⟨by decide, (ring_retention 2 1 exXs3).1 (by decide), by decide,
   (ring_retention 2 1 exXs2).2 (by decide)⟩

theorem no_empty_data_frames_witness :
    (2 : Nat) ≠ 0 ∧
    (∀ f ∈ (handlerInit exRun 1 2 [] []).1, dataFrameSamples f ≠ some []) ∧
    (∀ f ∈ (liveIter exRun 1 2).1, dataFrameSamples f ≠ some []) ∧
    sendWire WsFormat.binary (Frame.history ([] : List (Sample Unit))) = none :=
  ⟨by decide,
   fun f hf => (no_empty_data_frames Unit 2 (by decide)).1 exRun 1 [] [] f hf,
   fun f hf => (no_empty_data_frames Unit 2 (by decide)).2.1 exRun 1 2 f hf,
   ((no_empty_data_frames Unit 2 (by decide)).2.2.2 [] (by decide)).1⟩

theorem first_frame_errors_witness :
    (awaitResume none true
        = ResumeOutcome.errorClose "first frame must be resume (timeout)") ∧
    (awaitResume (some none) true
        = ResumeOutcome.errorClose "invalid JSON for first frame") ∧
    (isResumeMsg (Json.int 7) = false ∧
      awaitResume (some (some (Json.int 7))) true
        = ResumeOutcome.errorClose "first frame must be resume") ∧
    (isResumeMsg (Json.obj [("type", Json.str "resume")]) = true ∧
      resumeFromSeq [("type", Json.str "resume")] = some 1 ∧
      awaitResume (some (some (Json.obj [("type", Json.str "resume")]))) false
        = ResumeOutcome.errorClose "no active run") :=
  ⟨(first_frame_errors true).1, (first_frame_errors true).2.1,
   ⟨rfl, (first_frame_errors true).2.2.1 (Json.int 7) rfl⟩,
   ⟨rfl, rfl, (first_frame_errors false).2.2.2 [("type", Json.str "resume")] 1 rfl rfl⟩⟩

theorem playback_drain_witness :
    (playback_from_memory (FeedRun.init Unit 5 1) exPbSamples [2, 0, 4]).2 = true ∧
    (playback_from_memory (FeedRun.init Unit 5 1) exPbSamples [2, 0, 4]).1
      = playbackFinish ((FeedRun.init Unit 5 1).appendAll exPbSamples) :=
  ⟨by decide,
   (playback_drain (FeedRun.init Unit 5 1) exPbSamples [2, 0, 4] (by decide)).1⟩

theorem resume_from_seq_default_witness :
    isResumeType (jsonGet [("type", Json.str "resume"), ("from_seq", Json.int 0)] "type")
        = true ∧
    awaitResume
      (some (some (Json.obj [("type", Json.str "resume"), ("from_seq", Json.int 0)]))) true
      = ResumeOutcome.proceed 1 :=
  ⟨by decide, resume_from_seq_default _ (by decide) (Or.inr (Or.inr rfl))⟩

theorem live_done_falsy_final_seq_witness :
    exDoneRun.done = true ∧
    exDoneRun.final_seq = some 0 ∧
    0 < exDoneRun.last_seq ∧
    liveIter exDoneRun 1 0 = ([Frame.test_done exDoneRun.final_seq], none) :=
  ⟨by decide, by decide, by decide,
   live_done_falsy_final_seq exDoneRun 1 0 (by decide) (Or.inr (by decide))⟩

end Feed
